import Mathlib

/-!
A verification development for the `scrapeflow` phase-chain executor
(`scrapeflow/executor.py` and `scrapeflow/status.py`).

The embedding below mirrors the Python source:

* A status record (`StatusData`) is a Python `dict[str, Any]`, modelled as an
  insertion-ordered association list without duplicate keys; `setKey` is dict
  assignment (replace in place or append), `eraseKey` is `del`, `lookup` is
  `dict.get`.
* `previous_execution`, the `taskify` wrapper, `_execute_single_chain_async`
  (as `runPhases` / `executeSingleChain`), `_is_valid_filename` and the
  validation prologue of `execute_async` are translated function by function.
* Python exceptions relevant to the except-clauses of the chain runner are the
  inductive `PyExc`; the per-phase attempt outcome (including a `wait_for`
  timeout) is an `Except PyExc Value`.
* `str(datetime.now())` is modelled by an oracle `tod : Nat → String` indexed
  by a call counter, so that runs making no timestamp call are independent of
  the oracle.
* The cooperative scheduling of chains under the shared `asyncio.Semaphore`
  (`async with context.semaphore`) is modelled by a small-step transition
  system (`SchedStep` / `SchedReach`) plus a deterministic schedule executor
  (`schedStep` / `runSched`) recording chain completion order, and
  `tqdm.asyncio.tqdm.gather`'s result ordering (results sorted by submission
  index) is `gatherResult`.
-/

namespace Scrapeflow

/-- A JSON-serializable value stored in a status record.  Phase results and
task parameter mappings are opaque data for the executor; only string values
(the `<phase>_status` and `<phase>_last_run` fields) are ever inspected. -/
inductive Value where
  | vstr (s : String)
  | vdict (entries : List (String × String))
deriving DecidableEq, Repr

/-- `StatusData = dict[str, Any]` from `scrapeflow/status.py`, as an
insertion-ordered association list. -/
abbrev StatusData := List (String × Value)

/-- The status store: key ↦ stored record (`<key>.status.json` files). -/
abbrev Store := String → Option StatusData

/-- `dict` lookup. -/
def lookup : StatusData → String → Option Value
  | [], _ => none
  | (k', v') :: rest, k => if k' = k then some v' else lookup rest k

/-- `dict` assignment `d[k] = v`: replaces the value in place if the key is
present (Python dicts keep insertion order on update), else appends. -/
def setKey : StatusData → String → Value → StatusData
  | [], k, v => [(k, v)]
  | (k', v') :: rest, k, v =>
      if k' = k then (k, v) :: rest else (k', v') :: setKey rest k v

/-- `del d[k]`. -/
def eraseKey : StatusData → String → StatusData
  | [], _ => []
  | (k', v') :: rest, k =>
      if k' = k then eraseKey rest k else (k', v') :: eraseKey rest k

/-- Line 108 of `executor.py`:
`status = read_one_status(context.dir, key) or {"params": params}`.
Note Python `or`: an *empty* stored record is falsy and is replaced by the
fresh `{"params": params}` record. -/
def loadStatus (store : Store) (key : String) (params : Value) : StatusData :=
  match store key with
  | none => [("params", params)]
  | some s => if s = [] then [("params", params)] else s

/-- Store after `write_one_status(dir, key, status)`. -/
def storeSet (store : Store) (key : String) (s : StatusData) : Store :=
  fun k => if k = key then some s else store k

/-- The Python exceptions distinguished by the chain runner's except-clauses
(`executor.py` lines 129-156).  `otherError` stands for any other `Exception`
subclass (reaching the bare `except Exception` clause). -/
inductive PyExc where
  | unidentifiedImageError (msg : String)
  | invalidURL (msg : String)
  | statusCodeError (msg : String)
  | clientConnectorError (msg : String)
  | serverDisconnectedError (msg : String)
  | clientOSError (msg : String)
  | clientConnectionError (msg : String)
  | clientPayloadError (msg : String)
  | clientResponseError (msg : String)
  | timeoutError (msg : String)
  | cancelledError (msg : String)
  | runtimeError (msg : String)
  | otherError (name : String) (msg : String)
deriving DecidableEq, Repr

/-- `e.__class__.__name__`. -/
def className : PyExc → String
  | .unidentifiedImageError _ => "UnidentifiedImageError"
  | .invalidURL _ => "InvalidURL"
  | .statusCodeError _ => "StatusCodeError"
  | .clientConnectorError _ => "ClientConnectorError"
  | .serverDisconnectedError _ => "ServerDisconnectedError"
  | .clientOSError _ => "ClientOSError"
  | .clientConnectionError _ => "ClientConnectionError"
  | .clientPayloadError _ => "ClientPayloadError"
  | .clientResponseError _ => "ClientResponseError"
  | .timeoutError _ => "TimeoutError"
  | .cancelledError _ => "CancelledError"
  | .runtimeError _ => "RuntimeError"
  | .otherError n _ => n

/-- `str(e)`. -/
def excMsg : PyExc → String
  | .unidentifiedImageError m => m
  | .invalidURL m => m
  | .statusCodeError m => m
  | .clientConnectorError m => m
  | .serverDisconnectedError m => m
  | .clientOSError m => m
  | .clientConnectionError m => m
  | .clientPayloadError m => m
  | .clientResponseError m => m
  | .timeoutError m => m
  | .cancelledError m => m
  | .runtimeError m => m
  | .otherError _ m => m

/-- Whether the exception is caught by one of the dedicated except-clauses
(lines 129-153) rather than by the bare `except Exception` (line 154). -/
def recognized : PyExc → Bool
  | .otherError _ _ => false
  | _ => true

/-- Line 231's `except CancelledError` at the batch level. -/
def isCancelledExc : PyExc → Bool
  | .cancelledError _ => true
  | _ => false

/-- Lines 149-150: `except CancelledError as e: recognized_exception = TOError(e)`
(a cancelled phase is recorded as a timeout); all other recognized exceptions
are kept as caught. -/
def wrapCancelled : PyExc → PyExc
  | .cancelledError m => .timeoutError m
  | e => e

/-- Lines 163-166: the structured error string
`f"ERROR {e.__class__.__name__}::{e}"`. -/
def errString (e : PyExc) : String :=
  "ERROR " ++ className e ++ "::" ++ excMsg e

/-- `context.force_executors`: either the literal `"all"` or a list of
executors, compared through their `__name__`s. -/
inductive Force where
  | all
  | names (l : List String)
deriving DecidableEq, Repr

/-- `previous_execution` (`executor.py` lines 64-79): returns the stored
result if the phase has already run and is not forced, else `None`. -/
def previous_execution (phase : String) (force : Force) (task_status : StatusData) :
    Option Value :=
  match lookup task_status phase with
  | none => none
  | some v =>
    match force with
    | .all => none
    | .names l => if phase ∈ l then none else some v

/-- A phase (`taskify`-wrapped executor): a name (`func.__name__`) and a body.
The body's result models one awaited attempt of the phase under `wait_for`:
`.error (.timeoutError _)` covers `wait_for` raising `TimeoutError`. -/
structure Phase where
  name : String
  body : String → StatusData → Except PyExc Value

/-- `f"{task}_status"`. -/
def statusKey (p : String) : String := p ++ "_status"

/-- `f"{task}_last_run"`. -/
def lastRunKey (p : String) : String := p ++ "_last_run"

/-- The three status-record fields owned by a phase name. -/
def fieldsOf (p : String) : List String := [p, statusKey p, lastRunKey p]

/-- Well-formed chain: phase names are distinct and no phase's fields collide
with another phase's fields or with the reserved `params` field. -/
def wfNames (l : List String) : Prop :=
  ((l.flatMap fieldsOf) ++ ["params"]).Nodup

instance (l : List String) : Decidable (wfNames l) := by
  unfold wfNames; infer_instance

/-- How one chain ended: all phases processed (`completed`), stopped early on
a recognized failure (`stopped`, lines 158-170's `break`), or re-raised an
unrecognized failure (`raised`, lines 154-156). -/
inductive Outcome where
  | completed
  | stopped
  | raised (e : PyExc)
deriving DecidableEq, Repr

/-- Result of running one chain: the record passed to the final
`write_one_status` (`persisted`), the names of the phases whose bodies were
actually called (`invoked`, in order), the outcome, and the number of
`datetime.now()` calls made (`clock`). -/
structure ChainResult where
  persisted : StatusData
  invoked : List String
  outcome : Outcome
  clock : Nat
deriving DecidableEq, Repr

/-- Lines 120-127 (success path of one loop iteration): `status[task] =
response_status`; then `status[status_key] = "SUCCESS"` and, only when the
body actually ran, `status[last_run_key] = str(datetime.now())`. -/
def stepSkip (p : Phase) (s : StatusData) (prev : Value) : StatusData :=
  setKey (setKey s p.name prev) (statusKey p.name) (Value.vstr "SUCCESS")

/-- Success with `did_run = True`. -/
def stepSuccess (p : Phase) (s : StatusData) (v : Value) (now : String) : StatusData :=
  setKey (setKey (setKey s p.name v) (statusKey p.name) (Value.vstr "SUCCESS"))
    (lastRunKey p.name) (Value.vstr now)

/-- Lines 163-169 (recognized-failure path): `status[status_key] = "ERROR
<Kind>::<msg>"`; `status[last_run_key] = now`; `del status[task]` if present. -/
def stepError (p : Phase) (s : StatusData) (now : String) (e : PyExc) : StatusData :=
  eraseKey
    (setKey (setKey s (statusKey p.name) (Value.vstr (errString (wrapCancelled e))))
      (lastRunKey p.name) (Value.vstr now))
    p.name

/-- The phase loop of `_execute_single_chain_async` (lines 111-173), fused
with the `taskify` wrapper (lines 82-101): for each phase, consult
`previous_execution`; on skip reuse the stored result; on run call the body;
classify any exception; `break` on a recognized failure; persist-and-re-raise
on an unrecognized one. -/
def runPhases (force : Force) (key : String) (tod : Nat → String) :
    List Phase → StatusData → List String → Nat → ChainResult
  | [], s, inv, t => ⟨s, inv, .completed, t⟩
  | p :: rest, s, inv, t =>
    match previous_execution p.name force s with
    | some prev => runPhases force key tod rest (stepSkip p s prev) inv t
    | none =>
      match p.body key s with
      | .ok v => runPhases force key tod rest (stepSuccess p s v (tod t)) (inv ++ [p.name]) (t + 1)
      | .error e =>
        if recognized e then
          ⟨stepError p s (tod t) e, inv ++ [p.name], .stopped, t + 1⟩
        else
          ⟨s, inv ++ [p.name], .raised e, t⟩

/-- `_execute_single_chain_async` (lines 104-173) minus the semaphore (the
scheduling model below covers the `async with context.semaphore`): load the
record or initialize `{"params": params}`, run the phase loop, and persist
`result.persisted` (either at line 155, before re-raising, or at line 172). -/
def executeSingleChain (phases : List Phase) (force : Force) (store : Store)
    (key : String) (params : Value) (tod : Nat → String) : ChainResult :=
  runPhases force key tod phases (loadStatus store key params) [] 0

/-- Line 173's `return key`: the chain returns its key unless it re-raised. -/
def chainReturn (r : ChainResult) (key : String) : Option String :=
  match r.outcome with
  | .raised _ => none
  | _ => some key

/-- The status-shape invariant over a set of phase names: `<p>_status` maps
to `"SUCCESS"` iff the `<p>` result field is present. -/
def statusShape (names : List String) (s : StatusData) : Prop :=
  ∀ p ∈ names,
    (lookup s (statusKey p) = some (Value.vstr "SUCCESS") ↔ (lookup s p).isSome = true)

instance (names : List String) (s : StatusData) : Decidable (statusShape names s) := by
  unfold statusShape; infer_instance

/-- `tasks: dict[str, Params] | Sequence[str]` of `execute_async`.  A Python
dict cannot hold duplicate keys; a bare sequence can. -/
inductive Tasks where
  | dict (entries : List (String × Value))
  | keyList (ks : List String)
deriving DecidableEq, Repr

/-- Line 192: `all_keys = list(tasks.keys() if isinstance(tasks, dict) else tasks)`. -/
def Tasks.allKeys : Tasks → List String
  | .dict entries => entries.map Prod.fst
  | .keyList ks => ks

/-- Lines 226-228: `tasks if isinstance(tasks, dict) else {key: {} for key in tasks}`. -/
def Tasks.toPairs : Tasks → List (String × Value)
  | .dict entries => entries
  | .keyList ks => ks.map (fun k => (k, Value.vdict []))

/-- The two `ValueError`s of the validation prologue (lines 194-200). -/
inductive ValErr where
  | duplicateKeys (keys : List String)
  | invalidKey (key : String)
deriving DecidableEq, Repr

/-- `_is_valid_filename` (lines 176-177):
`filename not in [".", ".."] and not filename.count("/") > 0`. -/
def _is_valid_filename (filename : String) : Bool :=
  !(filename = "." || filename = "..") && !(filename.data.count '/' > 0)

/-- The validation prologue of `execute_async` (lines 191-200): first the
duplicate-key check (`len(set(all_keys)) != len(all_keys)`, error listing
every key whose count exceeds one), then the first invalid key found. -/
def validateKeys (allKeys : List String) : Except ValErr Unit :=
  if allKeys.dedup.length ≠ allKeys.length then
    .error (.duplicateKeys (allKeys.filter (fun k => 1 < allKeys.count k)))
  else
    match allKeys.find? (fun k => !_is_valid_filename k) with
    | some k => .error (.invalidKey k)
    | none => .ok ()

/-- Side effects of the batch entry point we track: `directory.mkdir(...)`
(line 202) and opening the `aiohttp.ClientSession` (line 210). -/
inductive Effect where
  | mkdirEffect
  | openSessionEffect
deriving DecidableEq, Repr

/-- What `execute_async` produces after validation: the key list, the `None`
sentinel (lines 231-234, on `CancelledError`/`KeyboardInterrupt`), or a
propagated exception. -/
inductive BatchOutcome where
  | ok (keys : List String)
  | abandoned
  | raised (e : PyExc)
deriving DecidableEq, Repr

/-- Runs every task's chain against the store.  The chains of a batch touch
disjoint store keys (keys are validated unique), so the concurrent
`tqdm.gather` over them is observationally this sequential fold; the first
chain to re-raise makes the gather re-raise. -/
def runChains (phases : List Phase) (force : Force) (tod : String → Nat → String) :
    List (String × Value) → Store → Except PyExc (List String × Store)
  | [], store => .ok ([], store)
  | (key, params) :: rest, store =>
    let r := executeSingleChain phases force store key params (tod key)
    let store' := storeSet store key r.persisted
    match r.outcome with
    | .raised e => .error e
    | _ =>
      match runChains phases force tod rest store' with
      | .ok (ks, st) => .ok (key :: ks, st)
      | .error e => .error e

/-- `execute_async` (lines 180-235): validation (before any effect), then
`mkdir` and session opening, then the gathered chains; `CancelledError` at
the gather yields the `None` sentinel, any other propagated exception escapes
the batch call. -/
def execute_async (phases : List Phase) (store : Store) (tasks : Tasks)
    (force : Force) (tod : String → Nat → String) :
    List Effect × Except ValErr BatchOutcome :=
  match validateKeys tasks.allKeys with
  | .error e => ([], .error e)
  | .ok _ =>
    ([.mkdirEffect, .openSessionEffect],
     .ok (match runChains phases force tod tasks.toPairs store with
          | .ok (ks, _) => .ok ks
          | .error e => if isCancelledExc e then .abandoned else .raised e))

/-! ### The concurrency model

One chain = one `_execute_single_chain_async` coroutine.  Its permit-holding
span (`async with context.semaphore`, lines 107-173) runs from the status
load to the status persistence.  A chain is `idle` before admission,
`running k` while holding the permit with `k` internal steps left (every
suspension point of the chain body), and `finished` after persisting and
releasing — `failed := true` when it exited by re-raising an unrecognized
failure (the `async with` releases the permit on that path too). -/

/-- Program counter of one chain coroutine. -/
inductive CPC where
  | idle
  | running (left : Nat)
  | finished (failed : Bool)
deriving DecidableEq, Repr

/-- Is this chain between its status load and its status persistence
(i.e. holding the semaphore permit)? -/
def CPC.isRunning : CPC → Bool
  | .running _ => true
  | _ => false

/-- Global state of the batch: one pc per chain plus the semaphore's free
permit count. -/
structure SchedState where
  pcs : List CPC
  avail : Nat
deriving DecidableEq, Repr

/-- Number of chains currently inside their load-to-persist span. -/
def countRunning (pcs : List CPC) : Nat := pcs.countP (fun c => c.isRunning)

/-- Initial state: all chains idle, semaphore at the parallelism ceiling
(`Semaphore(max_parallelism)`, line 215). -/
def schedInit (n maxParallelism : Nat) : SchedState :=
  ⟨List.replicate n CPC.idle, maxParallelism⟩

/-- One cooperative step of the event loop.  `acquire` is the semaphore
acquire followed by the status load (enabled only when a permit is free); `work` is
any internal suspension of the chain body; `finish` is the status persistence
followed by the permit release — on the normal return path (`failed = false`)
and on the unrecognized-failure re-raise path (`failed = true`) alike. -/
inductive SchedStep : SchedState → SchedState → Prop
  | acquire (pcs : List CPC) (avail i w : Nat)
      (h : pcs[i]? = some .idle) :
      SchedStep ⟨pcs, avail + 1⟩ ⟨pcs.set i (.running w), avail⟩
  | work (pcs : List CPC) (avail i k : Nat)
      (h : pcs[i]? = some (.running (k + 1))) :
      SchedStep ⟨pcs, avail⟩ ⟨pcs.set i (.running k), avail⟩
  | finish (pcs : List CPC) (avail i : Nat) (failed : Bool)
      (h : pcs[i]? = some (.running 0)) :
      SchedStep ⟨pcs, avail⟩ ⟨pcs.set i (.finished failed), avail + 1⟩

/-- States reachable by the event loop from the initial state of a batch of
`n` chains with parallelism ceiling `maxParallelism`. -/
inductive SchedReach (n maxParallelism : Nat) : SchedState → Prop
  | init : SchedReach n maxParallelism (schedInit n maxParallelism)
  | step {s s'} : SchedReach n maxParallelism s → SchedStep s s' →
      SchedReach n maxParallelism s'

/-- Executable event loop, for concrete schedules: also records the order in
which chains complete. -/
structure SchedExec where
  pcs : List CPC
  avail : Nat
  completions : List Nat
deriving DecidableEq, Repr

/-- Deterministic version of `SchedStep`: advance chain `i` by its one
enabled action (no-op when nothing is enabled for it). -/
def schedStep (works : List Nat) (st : SchedExec) (i : Nat) : SchedExec :=
  match st.pcs[i]? with
  | some .idle =>
      match st.avail with
      | 0 => st
      | a + 1 => ⟨st.pcs.set i (.running (works.getD i 0)), a, st.completions⟩
  | some (.running (k + 1)) => ⟨st.pcs.set i (.running k), st.avail, st.completions⟩
  | some (.running 0) =>
      ⟨st.pcs.set i (.finished false), st.avail + 1, st.completions ++ [i]⟩
  | _ => st

/-- Run a concrete schedule (a list of chain indices, one cooperative step
each) from the initial state. -/
def runSched (works : List Nat) (n maxParallelism : Nat) (sched : List Nat) : SchedExec :=
  sched.foldl (schedStep works) ⟨List.replicate n CPC.idle, maxParallelism, []⟩

/-- Every chain of the batch has completed. -/
def allFinished (st : SchedExec) : Prop :=
  ∀ c ∈ st.pcs, c = CPC.finished false

instance (st : SchedExec) : Decidable (allFinished st) := by
  unfold allFinished; infer_instance

/-- The task keys in the order the chains completed. -/
def completionKeys (keys : List String) (st : SchedExec) : List String :=
  st.completions.map (fun i => keys.getD i "")

/-- The list returned by `tqdm.asyncio.tqdm.gather` (line 221): it awaits the
index-tagged chains as they complete and then returns
`[r for _, r in sorted(res)]` — the chains' return values (their keys) sorted
by *submission index*, not by completion time. -/
def gatherResult (keys : List String) (st : SchedExec) : List String :=
  (st.completions.insertionSort (· ≤ ·)).map (fun i => keys.getD i "")

/-! ### Concrete fixtures used by witnesses and counterexamples -/

/-- A phase body that always succeeds with `v`. -/
def okBody (v : Value) : String → StatusData → Except PyExc Value := fun _ _ => .ok v

/-- A phase body that always raises `e`. -/
def errBody (e : PyExc) : String → StatusData → Except PyExc Value := fun _ _ => .error e

def fetchPhase : Phase := ⟨"fetch", okBody (Value.vdict [("size", "3")])⟩

def parsePhase : Phase := ⟨"parse", okBody (Value.vdict [("kind", "xml")])⟩

def thumbPhase : Phase := ⟨"thumb", okBody (Value.vstr "ok")⟩

def timeoutPhase : Phase := ⟨"jam", errBody (PyExc.timeoutError "slow")⟩

def bugPhase : Phase := ⟨"crash", errBody (PyExc.otherError "ValueError" "bad")⟩

def flakyPhase : Phase := ⟨"flaky", errBody (PyExc.runtimeError "boom")⟩

def todA : Nat → String := fun n => "2024-01-01 00:00:0" ++ toString n

def todB : Nat → String := fun n => "2024-01-02 00:00:0" ++ toString n

def emptyStore : Store := fun _ => none

/-- A store holding an *empty* record for every key. -/
def emptyRecStore : Store := fun _ => some []

def demoParams : Value := Value.vdict [("url", "http://good")]

/-- First run of the two-phase demo chain on a fresh store. -/
def run1 : ChainResult :=
  executeSingleChain [fetchPhase, parsePhase] (Force.names []) emptyStore "t1" demoParams todA

/-- Store after the first run persisted its record. -/
def storeAfterRun1 : Store := storeSet emptyStore "t1" run1.persisted

/-- First run of the three-phase demo chain on a fresh store. -/
def run1three : ChainResult :=
  executeSingleChain [fetchPhase, parsePhase, thumbPhase] (Force.names []) emptyStore "t1"
    demoParams todA

def storeAfterRun1three : Store := storeSet emptyStore "t1" run1three.persisted

/-- A well-formed stored record for witness instantiation. -/
def demoRecord : StatusData :=
  [("params", demoParams), ("fetch", Value.vdict [("size", "3")]),
   ("fetch_status", Value.vstr "SUCCESS")]

def recStore : Store := fun _ => some demoRecord

/-! ### Association-list lemmas -/

theorem lookup_setKey_self (s : StatusData) (k : String) (v : Value) :
    lookup (setKey s k v) k = some v := by
  induction s with
  | nil => simp [setKey, lookup]
  | cons hd tl ih =>
    obtain ⟨k', v'⟩ := hd
    by_cases h : k' = k <;> simp [setKey, lookup, h, ih]

theorem lookup_setKey_ne (s : StatusData) (k : String) (v : Value) (f : String)
    (h : f ≠ k) : lookup (setKey s k v) f = lookup s f := by
  induction s with
  | nil => simp [setKey, lookup, Ne.symm h]
  | cons hd tl ih =>
    obtain ⟨k', v'⟩ := hd
    by_cases h' : k' = k
    · subst h'
      simp [setKey, lookup, Ne.symm h]
    · by_cases h'' : k' = f <;> simp [setKey, lookup, h', h'', ih, h]

theorem lookup_eraseKey_self (s : StatusData) (k : String) :
    lookup (eraseKey s k) k = none := by
  induction s with
  | nil => simp [eraseKey, lookup]
  | cons hd tl ih =>
    obtain ⟨k', v'⟩ := hd
    by_cases h : k' = k <;> simp [eraseKey, lookup, h, ih]

theorem lookup_eraseKey_ne (s : StatusData) (k : String) (f : String)
    (h : f ≠ k) : lookup (eraseKey s k) f = lookup s f := by
  induction s with
  | nil => simp [eraseKey, lookup]
  | cons hd tl ih =>
    obtain ⟨k', v'⟩ := hd
    by_cases h' : k' = k
    · subst h'
      simp [eraseKey, lookup, Ne.symm h, ih]
    · by_cases h'' : k' = f <;> simp [eraseKey, lookup, h', h'', ih, h]

theorem setKey_eq_of_lookup (s : StatusData) (k : String) (v : Value)
    (h : lookup s k = some v) : setKey s k v = s := by
  induction s with
  | nil => simp [lookup] at h
  | cons hd tl ih =>
    obtain ⟨k', v'⟩ := hd
    by_cases h' : k' = k
    · subst h'
      simp [lookup] at h
      simp [setKey, h]
    · simp [lookup, h'] at h
      simp [setKey, h', ih h]

theorem lookup_ne_nil (s : StatusData) (f : String) (v : Value)
    (h : lookup s f = some v) : s ≠ [] := by
  intro hs; subst hs; simp [lookup] at h

theorem setKey_ne_nil (s : StatusData) (k : String) (v : Value) :
    setKey s k v ≠ [] := by
  cases s with
  | nil => simp [setKey]
  | cons hd tl =>
    obtain ⟨k', v'⟩ := hd
    by_cases h : k' = k <;> simp [setKey, h]

/-! ### String-key disequality lemmas -/

theorem append_ne_left (a b : String) (hb : b.data ≠ []) : a ++ b ≠ a := by
  intro h
  have hd : (a ++ b).data = a.data := congrArg String.data h
  rw [String.data_append] at hd
  have : a.data ++ b.data = a.data ++ [] := by simpa using hd
  exact hb (List.append_cancel_left this)

theorem statusKey_ne_self (p : String) : statusKey p ≠ p :=
  append_ne_left p "_status" (by decide)

theorem lastRunKey_ne_self (p : String) : lastRunKey p ≠ p :=
  append_ne_left p "_last_run" (by decide)

theorem statusKey_ne_lastRunKey (p : String) : statusKey p ≠ lastRunKey p := by
  intro h
  have hd : (p ++ "_status").data = (p ++ "_last_run").data := congrArg String.data h
  rw [String.data_append, String.data_append] at hd
  have := List.append_cancel_left hd
  simp at this

theorem errString_ne_SUCCESS (e : PyExc) : errString e ≠ "SUCCESS" := by
  intro h
  have hd : ("ERROR " ++ (className e ++ "::" ++ excMsg e)).data = "SUCCESS".data := by
    have : "ERROR " ++ className e ++ "::" ++ excMsg e = "SUCCESS" := by
      simpa [errString, String.append_assoc] using h
    exact congrArg String.data this
  rw [String.data_append] at hd
  simp at hd

/-! ### Field lookups after each loop-iteration step -/

theorem lookup_stepSkip_of_ne (p : Phase) (s : StatusData) (prev : Value) (f : String)
    (h1 : f ≠ p.name) (h2 : f ≠ statusKey p.name) :
    lookup (stepSkip p s prev) f = lookup s f := by
  rw [stepSkip, lookup_setKey_ne _ _ _ _ h2, lookup_setKey_ne _ _ _ _ h1]

theorem lookup_stepSkip_name (p : Phase) (s : StatusData) (prev : Value) :
    lookup (stepSkip p s prev) p.name = some prev := by
  rw [stepSkip, lookup_setKey_ne _ _ _ _ (fun h => statusKey_ne_self p.name h.symm),
    lookup_setKey_self]

theorem lookup_stepSkip_status (p : Phase) (s : StatusData) (prev : Value) :
    lookup (stepSkip p s prev) (statusKey p.name) = some (Value.vstr "SUCCESS") := by
  rw [stepSkip, lookup_setKey_self]

theorem lookup_stepSuccess_of_ne (p : Phase) (s : StatusData) (v : Value) (now f : String)
    (h1 : f ≠ p.name) (h2 : f ≠ statusKey p.name) (h3 : f ≠ lastRunKey p.name) :
    lookup (stepSuccess p s v now) f = lookup s f := by
  rw [stepSuccess, lookup_setKey_ne _ _ _ _ h3, lookup_setKey_ne _ _ _ _ h2,
    lookup_setKey_ne _ _ _ _ h1]

theorem lookup_stepSuccess_name (p : Phase) (s : StatusData) (v : Value) (now : String) :
    lookup (stepSuccess p s v now) p.name = some v := by
  rw [stepSuccess, lookup_setKey_ne _ _ _ _ (fun h => lastRunKey_ne_self p.name h.symm),
    lookup_setKey_ne _ _ _ _ (fun h => statusKey_ne_self p.name h.symm), lookup_setKey_self]

theorem lookup_stepSuccess_status (p : Phase) (s : StatusData) (v : Value) (now : String) :
    lookup (stepSuccess p s v now) (statusKey p.name) = some (Value.vstr "SUCCESS") := by
  rw [stepSuccess,
    lookup_setKey_ne _ _ _ _ (statusKey_ne_lastRunKey p.name), lookup_setKey_self]

theorem lookup_stepSuccess_lastRun (p : Phase) (s : StatusData) (v : Value) (now : String) :
    lookup (stepSuccess p s v now) (lastRunKey p.name) = some (Value.vstr now) := by
  rw [stepSuccess, lookup_setKey_self]

theorem lookup_stepError_of_ne (p : Phase) (s : StatusData) (now : String) (e : PyExc)
    (f : String) (h1 : f ≠ p.name) (h2 : f ≠ statusKey p.name) (h3 : f ≠ lastRunKey p.name) :
    lookup (stepError p s now e) f = lookup s f := by
  rw [stepError, lookup_eraseKey_ne _ _ _ h1, lookup_setKey_ne _ _ _ _ h3,
    lookup_setKey_ne _ _ _ _ h2]

theorem lookup_stepError_name (p : Phase) (s : StatusData) (now : String) (e : PyExc) :
    lookup (stepError p s now e) p.name = none := by
  rw [stepError, lookup_eraseKey_self]

theorem lookup_stepError_status (p : Phase) (s : StatusData) (now : String) (e : PyExc) :
    lookup (stepError p s now e) (statusKey p.name) =
      some (Value.vstr (errString (wrapCancelled e))) := by
  rw [stepError, lookup_eraseKey_ne _ _ _ (statusKey_ne_self p.name),
    lookup_setKey_ne _ _ _ _ (statusKey_ne_lastRunKey p.name), lookup_setKey_self]

theorem lookup_stepError_lastRun (p : Phase) (s : StatusData) (now : String) (e : PyExc) :
    lookup (stepError p s now e) (lastRunKey p.name) = some (Value.vstr now) := by
  rw [stepError, lookup_eraseKey_ne _ _ _ (lastRunKey_ne_self p.name), lookup_setKey_self]

/-! ### Well-formed chain lemmas -/

theorem wfNames_cons {n : String} {rest : List String} (h : wfNames (n :: rest)) :
    wfNames rest := by
  unfold wfNames at *
  rw [List.flatMap_cons, List.append_assoc] at h
  exact h.of_append_right

theorem wfNames_head_disjoint {n : String} {rest : List String} (h : wfNames (n :: rest)) :
    ∀ m ∈ rest, ∀ f ∈ fieldsOf n, f ∉ fieldsOf m := by
  unfold wfNames at h
  rw [List.flatMap_cons, List.append_assoc] at h
  have hd := List.disjoint_of_nodup_append h
  intro m hm f hf hfm
  exact hd hf (List.mem_append_left _ (List.mem_flatMap.mpr ⟨m, hm, hfm⟩))

theorem wfNames_params {l : List String} (h : wfNames l) :
    ∀ p ∈ l, ∀ f ∈ fieldsOf p, f ≠ "params" := by
  have hd := List.disjoint_of_nodup_append h
  intro p hp f hf heq
  exact hd (List.mem_flatMap.mpr ⟨p, hp, hf⟩) (by simp [heq])

theorem wfNames_nodup {l : List String} (h : wfNames l) : l.Nodup := by
  induction l with
  | nil => simp
  | cons n rest ih =>
    refine List.nodup_cons.mpr ⟨?_, ih (wfNames_cons h)⟩
    intro hn
    exact wfNames_head_disjoint h n hn n (by simp [fieldsOf]) (by simp [fieldsOf])

theorem mem_fieldsOf_self (n : String) : n ∈ fieldsOf n := by simp [fieldsOf]

theorem statusKey_mem_fieldsOf (n : String) : statusKey n ∈ fieldsOf n := by simp [fieldsOf]

theorem lastRunKey_mem_fieldsOf (n : String) : lastRunKey n ∈ fieldsOf n := by simp [fieldsOf]

/-! ### Structural lemmas about the phase loop -/

theorem runPhases_append_completed (force : Force) (key : String) (tod : Nat → String)
    (pre rest : List Phase) :
    ∀ (s : StatusData) (inv : List String) (t : Nat),
    (runPhases force key tod pre s inv t).outcome = Outcome.completed →
    runPhases force key tod (pre ++ rest) s inv t =
      runPhases force key tod rest (runPhases force key tod pre s inv t).persisted
        (runPhases force key tod pre s inv t).invoked
        (runPhases force key tod pre s inv t).clock := by
  induction pre with
  | nil => intro s inv t _; simp [runPhases]
  | cons p pre ih =>
    intro s inv t h
    rw [List.cons_append]
    rcases hprev : previous_execution p.name force s with _ | prev
    · rcases hbody : p.body key s with e | v
      · by_cases hrec : recognized e = true
        · simp only [runPhases, hprev, hbody, if_pos hrec] at h
          exact absurd h (by simp)
        · simp only [runPhases, hprev, hbody, if_neg hrec] at h
          exact absurd h (by simp)
      · simp only [runPhases, hprev, hbody] at h ⊢
        exact ih _ _ _ h
    · simp only [runPhases, hprev] at h ⊢
      exact ih _ _ _ h

theorem runPhases_append_not_completed (force : Force) (key : String) (tod : Nat → String)
    (pre rest : List Phase) :
    ∀ (s : StatusData) (inv : List String) (t : Nat),
    (runPhases force key tod pre s inv t).outcome ≠ Outcome.completed →
    runPhases force key tod (pre ++ rest) s inv t = runPhases force key tod pre s inv t := by
  induction pre with
  | nil =>
    intro s inv t h
    exact absurd (show (runPhases force key tod [] s inv t).outcome = Outcome.completed by
      simp [runPhases]) h
  | cons p pre ih =>
    intro s inv t h
    rw [List.cons_append]
    rcases hprev : previous_execution p.name force s with _ | prev
    · rcases hbody : p.body key s with e | v
      · by_cases hrec : recognized e = true
        · simp only [runPhases, hprev, hbody, if_pos hrec]
        · simp only [runPhases, hprev, hbody, if_neg hrec]
      · simp only [runPhases, hprev, hbody] at h ⊢
        exact ih _ _ _ h
    · simp only [runPhases, hprev] at h ⊢
      exact ih _ _ _ h

theorem runPhases_untouched (force : Force) (key : String) (tod : Nat → String)
    (ps : List Phase) :
    ∀ (s : StatusData) (inv : List String) (t : Nat) (f : String),
    (∀ q ∈ ps, f ∉ fieldsOf q.name) →
    lookup (runPhases force key tod ps s inv t).persisted f = lookup s f := by
  induction ps with
  | nil => intro s inv t f _; simp [runPhases]
  | cons p rest ih =>
    intro s inv t f hf
    have hfp : f ∉ fieldsOf p.name := hf p (by simp)
    have hfr : ∀ q ∈ rest, f ∉ fieldsOf q.name := fun q hq => hf q (by simp [hq])
    have h1 : f ≠ p.name := fun h => hfp (h ▸ mem_fieldsOf_self p.name)
    have h2 : f ≠ statusKey p.name := fun h => hfp (h ▸ statusKey_mem_fieldsOf p.name)
    have h3 : f ≠ lastRunKey p.name := fun h => hfp (h ▸ lastRunKey_mem_fieldsOf p.name)
    rcases hprev : previous_execution p.name force s with _ | prev
    · rcases hbody : p.body key s with e | v
      · by_cases hrec : recognized e = true
        · simp only [runPhases, hprev, hbody, if_pos hrec]
          exact lookup_stepError_of_ne p s (tod t) e f h1 h2 h3
        · simp only [runPhases, hprev, hbody, if_neg hrec]
      · simp only [runPhases, hprev, hbody]
        rw [ih _ _ _ _ hfr, lookup_stepSuccess_of_ne _ _ _ _ _ h1 h2 h3]
    · simp only [runPhases, hprev]
      rw [ih _ _ _ _ hfr, lookup_stepSkip_of_ne _ _ _ _ h1 h2]

theorem runPhases_all_skip (key : String) (tod : Nat → String) (l : List String)
    (ps : List Phase) :
    ∀ (s : StatusData) (inv : List String) (t : Nat),
    (∀ q ∈ ps, q.name ∉ l) →
    (∀ q ∈ ps, ∃ v, lookup s q.name = some v ∧
      lookup s (statusKey q.name) = some (Value.vstr "SUCCESS")) →
    runPhases (Force.names l) key tod ps s inv t = ⟨s, inv, Outcome.completed, t⟩ := by
  induction ps with
  | nil => intro s inv t _ _; simp [runPhases]
  | cons p rest ih =>
    intro s inv t hl hpres
    obtain ⟨v, hv, hvs⟩ := hpres p (by simp)
    have hprev : previous_execution p.name (Force.names l) s = some v := by
      simp [previous_execution, hv, hl p (by simp)]
    have hstep : stepSkip p s v = s := by
      rw [stepSkip, setKey_eq_of_lookup s p.name v hv, setKey_eq_of_lookup _ _ _ hvs]
    simp only [runPhases, hprev, hstep]
    exact ih _ _ _ (fun q hq => hl q (by simp [hq]))
      (fun q hq => hpres q (by simp [hq]))

theorem runPhases_completed_fields (force : Force) (key : String) (tod : Nat → String)
    (ps : List Phase) :
    ∀ (s : StatusData) (inv : List String) (t : Nat),
    wfNames (ps.map Phase.name) →
    (runPhases force key tod ps s inv t).outcome = Outcome.completed →
    ∀ q ∈ ps, (∃ v, lookup (runPhases force key tod ps s inv t).persisted q.name = some v) ∧
      lookup (runPhases force key tod ps s inv t).persisted (statusKey q.name) =
        some (Value.vstr "SUCCESS") := by
  induction ps with
  | nil => intro s inv t _ _ q hq; exact absurd hq (by simp)
  | cons p rest ih =>
    intro s inv t hwf hc q hq
    have hwf' : wfNames (rest.map Phase.name) := wfNames_cons (by simpa using hwf)
    have hdisj := @wfNames_head_disjoint p.name (rest.map Phase.name)
      (by simpa using hwf)
    rcases hprev : previous_execution p.name force s with _ | prev
    · rcases hbody : p.body key s with e | v
      · by_cases hrec : recognized e = true
        · simp only [runPhases, hprev, hbody, if_pos hrec] at hc
          exact absurd hc (by simp)
        · simp only [runPhases, hprev, hbody, if_neg hrec] at hc
          exact absurd hc (by simp)
      · simp only [runPhases, hprev, hbody] at hc ⊢
        rcases List.mem_cons.mp hq with hqp | hqr
        · subst hqp
          constructor
          · refine ⟨v, ?_⟩
            rw [runPhases_untouched force key tod rest _ _ _ q.name
              (fun r hr => hdisj r.name (by simp [List.mem_map]; exact ⟨r, hr, rfl⟩)
                q.name (mem_fieldsOf_self q.name)), lookup_stepSuccess_name]
          · rw [runPhases_untouched force key tod rest _ _ _ (statusKey q.name)
              (fun r hr => hdisj r.name (by simp [List.mem_map]; exact ⟨r, hr, rfl⟩)
                (statusKey q.name) (statusKey_mem_fieldsOf q.name)),
              lookup_stepSuccess_status]
        · exact ih _ _ _ hwf' hc q hqr
    · simp only [runPhases, hprev] at hc ⊢
      rcases List.mem_cons.mp hq with hqp | hqr
      · subst hqp
        constructor
        · refine ⟨prev, ?_⟩
          rw [runPhases_untouched force key tod rest _ _ _ q.name
            (fun r hr => hdisj r.name (by simp [List.mem_map]; exact ⟨r, hr, rfl⟩)
              q.name (mem_fieldsOf_self q.name)), lookup_stepSkip_name]
        · rw [runPhases_untouched force key tod rest _ _ _ (statusKey q.name)
            (fun r hr => hdisj r.name (by simp [List.mem_map]; exact ⟨r, hr, rfl⟩)
              (statusKey q.name) (statusKey_mem_fieldsOf q.name)),
            lookup_stepSkip_status]
      · exact ih _ _ _ hwf' hc q hqr

theorem runPhases_persisted_ne_nil (force : Force) (key : String) (tod : Nat → String)
    (ps : List Phase) :
    ∀ (s : StatusData) (inv : List String) (t : Nat), s ≠ [] →
    (runPhases force key tod ps s inv t).persisted ≠ [] := by
  induction ps with
  | nil => intro s inv t hs; simpa [runPhases] using hs
  | cons p rest ih =>
    intro s inv t hs
    rcases hprev : previous_execution p.name force s with _ | prev
    · rcases hbody : p.body key s with e | v
      · by_cases hrec : recognized e = true
        · simp only [runPhases, hprev, hbody, if_pos hrec]
          exact lookup_ne_nil _ _ _ (lookup_stepError_lastRun p s (tod t) e)
        · simpa only [runPhases, hprev, hbody, if_neg hrec] using hs
      · simp only [runPhases, hprev, hbody]
        exact ih _ _ _ (setKey_ne_nil _ _ _)
    · simp only [runPhases, hprev]
      exact ih _ _ _ (setKey_ne_nil _ _ _)

theorem loadStatus_ne_nil (store : Store) (key : String) (params : Value) :
    loadStatus store key params ≠ [] := by
  unfold loadStatus
  rcases store key with _ | s
  · simp
  · by_cases h : s = [] <;> simp [h]

theorem statusShape_fresh (names : List String) (hwf : wfNames names) (params : Value) :
    statusShape names [("params", params)] := by
  intro p hp
  have h1 : p ≠ "params" := wfNames_params hwf p hp p (mem_fieldsOf_self p)
  have h2 : statusKey p ≠ "params" := wfNames_params hwf p hp _ (statusKey_mem_fieldsOf p)
  simp [lookup, Ne.symm h1, Ne.symm h2]

theorem previous_execution_some_lookup {phase : String} {force : Force}
    {s : StatusData} {prev : Value}
    (h : previous_execution phase force s = some prev) : lookup s phase = some prev := by
  unfold previous_execution at h
  rcases hl : lookup s phase with _ | w
  · rw [hl] at h; simp at h
  · rw [hl] at h
    rcases force with _ | l
    · simp at h
    · by_cases hmem : phase ∈ l
      · simp [hmem] at h
      · simp [hmem] at h
        rw [h]

theorem runPhases_shape (force : Force) (key : String) (tod : Nat → String)
    (ps : List Phase) :
    ∀ (s : StatusData) (inv : List String) (t : Nat),
    wfNames (ps.map Phase.name) →
    statusShape (ps.map Phase.name) s →
    statusShape (ps.map Phase.name) (runPhases force key tod ps s inv t).persisted := by
  induction ps with
  | nil => intro s inv t _ h0; simpa [runPhases] using h0
  | cons p rest ih =>
    intro s inv t hwf h0
    have hwf' : wfNames (rest.map Phase.name) := wfNames_cons (by simpa using hwf)
    have hdisj := @wfNames_head_disjoint p.name (rest.map Phase.name)
      (by simpa using hwf)
    have hne : ∀ q' ∈ rest.map Phase.name, ∀ f, f ∈ fieldsOf q' → ∀ g, g ∈ fieldsOf p.name →
        f ≠ g := by
      intro q' hq' f hf g hg hfg
      exact hdisj q' hq' g hg (hfg ▸ hf)
    have hmemmap : ∀ r : Phase, r ∈ rest → r.name ∈ rest.map Phase.name := by
      intro r hr; exact List.mem_map.mpr ⟨r, hr, rfl⟩
    rcases hprev : previous_execution p.name force s with _ | prev
    · rcases hbody : p.body key s with e | v
      · by_cases hrec : recognized e = true
        · -- recognized failure: final record is `stepError` applied to `s`
          simp only [runPhases, hprev, hbody, if_pos hrec]
          intro q hq
          rcases List.mem_cons.mp hq with hqp | hqr
          · subst hqp
            rw [lookup_stepError_status, lookup_stepError_name]
            simp [errString_ne_SUCCESS (wrapCancelled e)]
          · have l1 : q ≠ p.name :=
              hne q hqr q (mem_fieldsOf_self q) p.name (mem_fieldsOf_self p.name)
            have l2 : statusKey q ≠ p.name :=
              hne q hqr _ (statusKey_mem_fieldsOf q) p.name (mem_fieldsOf_self p.name)
            have l3 : q ≠ statusKey p.name :=
              hne q hqr q (mem_fieldsOf_self q) _ (statusKey_mem_fieldsOf p.name)
            have l4 : statusKey q ≠ statusKey p.name :=
              hne q hqr _ (statusKey_mem_fieldsOf q) _ (statusKey_mem_fieldsOf p.name)
            have l5 : q ≠ lastRunKey p.name :=
              hne q hqr q (mem_fieldsOf_self q) _ (lastRunKey_mem_fieldsOf p.name)
            have l6 : statusKey q ≠ lastRunKey p.name :=
              hne q hqr _ (statusKey_mem_fieldsOf q) _ (lastRunKey_mem_fieldsOf p.name)
            rw [lookup_stepError_of_ne _ _ _ _ _ l2 l4 l6,
              lookup_stepError_of_ne _ _ _ _ _ l1 l3 l5]
            exact h0 q (by simp [hqr])
        · -- unrecognized failure: record persisted unchanged
          simp only [runPhases, hprev, hbody, if_neg hrec]
          exact h0
      · -- phase ran successfully: `stepSuccess`, then the rest of the chain
        simp only [runPhases, hprev, hbody]
        intro q hq
        rcases List.mem_cons.mp hq with hqp | hqr
        · subst hqp
          have hu1 := runPhases_untouched force key tod rest (stepSuccess p s v (tod t))
            (inv ++ [p.name]) (t + 1) p.name
            (fun r hr => fun hmem =>
              hdisj r.name (hmemmap r hr) p.name (mem_fieldsOf_self p.name) hmem)
          have hu2 := runPhases_untouched force key tod rest (stepSuccess p s v (tod t))
            (inv ++ [p.name]) (t + 1) (statusKey p.name)
            (fun r hr => fun hmem =>
              hdisj r.name (hmemmap r hr) (statusKey p.name)
                (statusKey_mem_fieldsOf p.name) hmem)
          rw [hu1, hu2, lookup_stepSuccess_name, lookup_stepSuccess_status]
          simp
        · refine ih (stepSuccess p s v (tod t)) (inv ++ [p.name]) (t + 1) hwf' ?_ q hqr
          intro q' hq'
          have l1 : q' ≠ p.name :=
            hne q' hq' q' (mem_fieldsOf_self q') p.name (mem_fieldsOf_self p.name)
          have l2 : statusKey q' ≠ p.name :=
            hne q' hq' _ (statusKey_mem_fieldsOf q') p.name (mem_fieldsOf_self p.name)
          have l3 : q' ≠ statusKey p.name :=
            hne q' hq' q' (mem_fieldsOf_self q') _ (statusKey_mem_fieldsOf p.name)
          have l4 : statusKey q' ≠ statusKey p.name :=
            hne q' hq' _ (statusKey_mem_fieldsOf q') _ (statusKey_mem_fieldsOf p.name)
          have l5 : q' ≠ lastRunKey p.name :=
            hne q' hq' q' (mem_fieldsOf_self q') _ (lastRunKey_mem_fieldsOf p.name)
          have l6 : statusKey q' ≠ lastRunKey p.name :=
            hne q' hq' _ (statusKey_mem_fieldsOf q') _ (lastRunKey_mem_fieldsOf p.name)
          rw [lookup_stepSuccess_of_ne _ _ _ _ _ l2 l4 l6,
            lookup_stepSuccess_of_ne _ _ _ _ _ l1 l3 l5]
          exact h0 q' (by simp [hq'])
    · -- phase skipped: `stepSkip`, then the rest of the chain
      simp only [runPhases, hprev]
      intro q hq
      rcases List.mem_cons.mp hq with hqp | hqr
      · subst hqp
        have hu1 := runPhases_untouched force key tod rest (stepSkip p s prev) inv t p.name
          (fun r hr => fun hmem =>
            hdisj r.name (hmemmap r hr) p.name (mem_fieldsOf_self p.name) hmem)
        have hu2 := runPhases_untouched force key tod rest (stepSkip p s prev) inv t
          (statusKey p.name)
          (fun r hr => fun hmem =>
            hdisj r.name (hmemmap r hr) (statusKey p.name)
              (statusKey_mem_fieldsOf p.name) hmem)
        rw [hu1, hu2, lookup_stepSkip_name, lookup_stepSkip_status]
        simp
      · refine ih (stepSkip p s prev) inv t hwf' ?_ q hqr
        intro q' hq'
        have l1 : q' ≠ p.name :=
          hne q' hq' q' (mem_fieldsOf_self q') p.name (mem_fieldsOf_self p.name)
        have l2 : statusKey q' ≠ p.name :=
          hne q' hq' _ (statusKey_mem_fieldsOf q') p.name (mem_fieldsOf_self p.name)
        have l3 : q' ≠ statusKey p.name :=
          hne q' hq' q' (mem_fieldsOf_self q') _ (statusKey_mem_fieldsOf p.name)
        have l4 : statusKey q' ≠ statusKey p.name :=
          hne q' hq' _ (statusKey_mem_fieldsOf q') _ (statusKey_mem_fieldsOf p.name)
        rw [lookup_stepSkip_of_ne _ _ _ _ l2 l4, lookup_stepSkip_of_ne _ _ _ _ l1 l3]
        exact h0 q' (by simp [hq'])

theorem runPhases_first_error (force : Force) (key : String) (tod : Nat → String)
    (pre post : List Phase) (p : Phase) (s : StatusData) (inv : List String) (t : Nat)
    (e : PyExc)
    (hpre : (runPhases force key tod pre s inv t).outcome = Outcome.completed)
    (hskip : previous_execution p.name force
      (runPhases force key tod pre s inv t).persisted = none)
    (herr : p.body key (runPhases force key tod pre s inv t).persisted = Except.error e) :
    runPhases force key tod (pre ++ p :: post) s inv t =
      if recognized e = true then
        ⟨stepError p (runPhases force key tod pre s inv t).persisted
            (tod (runPhases force key tod pre s inv t).clock) e,
          (runPhases force key tod pre s inv t).invoked ++ [p.name], Outcome.stopped,
          (runPhases force key tod pre s inv t).clock + 1⟩
      else
        ⟨(runPhases force key tod pre s inv t).persisted,
          (runPhases force key tod pre s inv t).invoked ++ [p.name], Outcome.raised e,
          (runPhases force key tod pre s inv t).clock⟩ := by
  rw [runPhases_append_completed force key tod pre (p :: post) s inv t hpre]
  by_cases hrec : recognized e = true
  · simp only [runPhases, hskip, herr, if_pos hrec]
  · simp only [runPhases, hskip, herr, if_neg hrec]

/-! ### Scheduler lemmas -/

theorem countP_set (p : CPC → Bool) :
    ∀ (l : List CPC) (i : Nat) (c c' : CPC), l[i]? = some c →
    ((l.set i c').countP p) + (if p c then 1 else 0) =
      l.countP p + (if p c' then 1 else 0) := by
  intro l
  induction l with
  | nil => intro i c c' h; simp at h
  | cons hd tl ih =>
    intro i c c' h
    cases i with
    | zero =>
      simp at h
      subst h
      simp [List.countP_cons]
      omega
    | succ m =>
      simp at h
      have := ih m c c' h
      simp [List.countP_cons]
      omega

theorem countRunning_replicate_idle (n : Nat) :
    countRunning (List.replicate n CPC.idle) = 0 := by
  induction n with
  | zero => rfl
  | succ m ih =>
    simp only [List.replicate_succ, countRunning, List.countP_cons] at *
    simp [CPC.isRunning, ih]

/-- Executor invariant: the completion log holds exactly the indices of
finished chains, each once. -/
def schedInv (n : Nat) (st : SchedExec) : Prop :=
  st.pcs.length = n ∧ st.completions.Nodup ∧
  ∀ i : Nat, i ∈ st.completions ↔ st.pcs[i]? = some (CPC.finished false)

theorem schedStep_inv (works : List Nat) (n : Nat) (st : SchedExec) (i : Nat)
    (h : schedInv n st) : schedInv n (schedStep works st i) := by
  obtain ⟨hlen, hnd, hiff⟩ := h
  have hlt : ∀ c : CPC, st.pcs[i]? = some c → i < st.pcs.length := by
    intro c hc
    obtain ⟨hl, _⟩ := List.getElem?_eq_some_iff.mp hc
    exact hl
  rcases hg : st.pcs[i]? with _ | c
  · simpa [schedStep, hg] using ⟨hlen, hnd, hiff⟩
  · cases c with
    | idle =>
      rcases hav : st.avail with _ | a
      · simpa [schedStep, hg, hav] using ⟨hlen, hnd, hiff⟩
      · refine ⟨by simp [schedStep, hg, hav, hlen], by simpa [schedStep, hg, hav] using hnd, ?_⟩
        intro j
        simp only [schedStep, hg, hav]
        by_cases hj : j = i
        · subst hj
          rw [List.getElem?_set_self (hlt _ hg)]
          rw [hiff j, hg]
          simp
        · rw [List.getElem?_set_ne (fun hh => hj hh.symm)]
          exact hiff j
    | running k =>
      cases k with
      | zero =>
        have hin : i ∉ st.completions := by
          intro hmem
          have := (hiff i).mp hmem
          rw [hg] at this
          exact absurd this (by simp)
        refine ⟨by simp [schedStep, hg, hlen], ?_, ?_⟩
        · simp only [schedStep, hg]
          rw [List.nodup_append]
          exact ⟨hnd, by simp, by intro a ha hb; simp at hb; subst hb; exact hin ha⟩
        · intro j
          simp only [schedStep, hg]
          by_cases hj : j = i
          · subst hj
            rw [List.getElem?_set_self (hlt _ hg)]
            simp
          · rw [List.getElem?_set_ne (fun hh => hj hh.symm)]
            rw [List.mem_append]
            simp only [List.mem_singleton]
            constructor
            · intro hm
              rcases hm with hm | hm
              · exact (hiff j).mp hm
              · exact absurd hm hj
            · intro hm
              exact Or.inl ((hiff j).mpr hm)
      | succ m =>
        refine ⟨by simp [schedStep, hg, hlen], by simpa [schedStep, hg] using hnd, ?_⟩
        intro j
        simp only [schedStep, hg]
        by_cases hj : j = i
        · subst hj
          rw [List.getElem?_set_self (hlt _ hg)]
          rw [hiff j, hg]
          simp
        · rw [List.getElem?_set_ne (fun hh => hj hh.symm)]
          exact hiff j
    | finished b =>
      simpa [schedStep, hg] using ⟨hlen, hnd, hiff⟩

theorem runSched_inv (works : List Nat) (n maxParallelism : Nat) (sched : List Nat) :
    schedInv n (runSched works n maxParallelism sched) := by
  have hinit : schedInv n (⟨List.replicate n CPC.idle, maxParallelism, []⟩ : SchedExec) := by
    refine ⟨by simp, by simp, ?_⟩
    intro i
    simp only [List.not_mem_nil, false_iff]
    rw [List.getElem?_replicate]
    by_cases h : i < n <;> simp [h]
  have main : ∀ (l : List Nat) (st : SchedExec), schedInv n st →
      schedInv n (l.foldl (schedStep works) st) := by
    intro l
    induction l with
    | nil => intro st h; exact h
    | cons i rest ih =>
      intro st h
      exact ih _ (schedStep_inv works n st i h)
  exact main sched _ hinit

theorem map_getD_range (keys : List String) :
    (List.range keys.length).map (fun i => keys.getD i "") = keys := by
  apply List.ext_getElem
  · simp
  · intro i h1 h2
    simp only [List.getElem_map, List.getElem_range]
    exact List.getD_eq_getElem keys "" h2

/-! ### Batch-level lemmas -/

theorem dedup_length_eq_iff (l : List String) :
    l.dedup.length = l.length ↔ l.Nodup := by
  constructor
  · intro h
    have hsub : l.dedup.Sublist l := List.dedup_sublist l
    have : l.dedup = l := hsub.eq_of_length h
    rw [← this]
    exact l.nodup_dedup
  · intro h
    rw [List.dedup_eq_self.mpr h]

theorem recognized_of_isCancelled (e : PyExc) (h : isCancelledExc e = true) :
    recognized e = true := by
  cases e <;> simp_all [isCancelledExc, recognized]

theorem mem_duplicate_filter (l : List String) (k : String) :
    k ∈ l.filter (fun k => 1 < l.count k) ↔ 1 < l.count k := by
  rw [List.mem_filter]
  constructor
  · intro ⟨_, h⟩
    simpa using h
  · intro h
    refine ⟨?_, by simpa using h⟩
    have : 0 < l.count k := by omega
    exact List.count_pos_iff.mp this

/-- Pairwise field-disjointness of distinct phase names in a well-formed chain. -/
theorem wfNames_pairwise_disjoint {l : List String} (h : wfNames l) :
    ∀ a ∈ l, ∀ b ∈ l, a ≠ b → ∀ f ∈ fieldsOf a, f ∉ fieldsOf b := by
  induction l with
  | nil => intro a ha; exact absurd ha (by simp)
  | cons n rest ih =>
    intro a ha b hb hab f hf hfb
    rcases List.mem_cons.mp ha with rfl | ha'
    · rcases List.mem_cons.mp hb with rfl | hb'
      · exact hab rfl
      · exact wfNames_head_disjoint h b hb' f hf hfb
    · rcases List.mem_cons.mp hb with rfl | hb'
      · exact wfNames_head_disjoint h a ha' f hfb hf
      · exact ih (wfNames_cons h) a ha' b hb' hab f hf hfb

/-! ## The claims

Each claim of the specification is settled by exactly one theorem below
(plus, where applicable, a witness instantiating its hypotheses and a
counterexample refuting the claim's original wording). -/

/-- C1: every status record the chain runner persists satisfies the
status-shape invariant — for a well-formed chain, and a store whose record
for the key (if any) already satisfies the invariant (the invariant is
inductive: fresh records satisfy it and every persist preserves it), the
persisted record maps `<p>_status` to `"SUCCESS"` iff `<p>` is present, for
every phase name `p` of the chain. -/
theorem chain_persists_status_shape (phases : List Phase) (force : Force) (store : Store)
    (key : String) (params : Value) (tod : Nat → String)
    (hwf : wfNames (phases.map Phase.name))
    (hstore : ∀ s, store key = some s → statusShape (phases.map Phase.name) s) :
    statusShape (phases.map Phase.name)
      (executeSingleChain phases force store key params tod).persisted := by
  unfold executeSingleChain
  apply runPhases_shape _ _ _ _ _ _ _ hwf
  rcases hs : store key with _ | s
  · simp only [loadStatus, hs]
    exact statusShape_fresh _ hwf params
  · by_cases he : s = []
    · simp only [loadStatus, hs, he, if_pos]
      exact statusShape_fresh _ hwf params
    · simp only [loadStatus, hs, if_neg he]
      exact hstore s hs

/-- Witness for C1 at a concrete two-phase chain over a store holding a
well-shaped record. -/
theorem chain_persists_status_shape_witness :
    statusShape ([fetchPhase, parsePhase].map Phase.name)
      (executeSingleChain [fetchPhase, parsePhase] (Force.names []) recStore "t1"
        demoParams todA).persisted :=
  chain_persists_status_shape [fetchPhase, parsePhase] (Force.names []) recStore "t1"
    demoParams todA (by decide)
    (fun s h => by
      have hs : demoRecord = s := Option.some.inj h
      rw [← hs]
      decide)

/-- C6: semaphore safety of the batch — in every state the event loop can
reach, the number of chains simultaneously between their status-record load
and their status-record persistence equals the number of permits taken
(`countRunning + avail = maxParallelism`, i.e. each such chain holds exactly
one permit, and permits are returned on both the normal and the
failure-propagation exit, by the `finish` transition), and hence never
exceeds the parallelism ceiling. -/
theorem concurrency_bound_invariant (n maxParallelism : Nat) (s : SchedState)
    (h : SchedReach n maxParallelism s) :
    countRunning s.pcs + s.avail = maxParallelism ∧
      countRunning s.pcs ≤ maxParallelism := by
  have hkey : countRunning s.pcs + s.avail = maxParallelism := by
    induction h with
    | init => simp [schedInit, countRunning_replicate_idle]
    | step hr hstep ih =>
      cases hstep with
      | acquire pcs avail i w hg =>
        have hc := countP_set (fun c => c.isRunning) pcs i CPC.idle (CPC.running w) hg
        rw [show (if (fun c : CPC => c.isRunning) CPC.idle = true then 1 else 0) = 0 from rfl,
          show (if (fun c : CPC => c.isRunning) (CPC.running w) = true then 1 else 0) = 1
            from rfl] at hc
        simp only [countRunning] at ih ⊢
        omega
      | work pcs avail i k hg =>
        have hc := countP_set (fun c => c.isRunning) pcs i (CPC.running (k + 1))
          (CPC.running k) hg
        rw [show (if (fun c : CPC => c.isRunning) (CPC.running (k + 1)) = true then 1 else 0) = 1
            from rfl,
          show (if (fun c : CPC => c.isRunning) (CPC.running k) = true then 1 else 0) = 1
            from rfl] at hc
        simp only [countRunning] at ih ⊢
        omega
      | finish pcs avail i failed hg =>
        have hc := countP_set (fun c => c.isRunning) pcs i (CPC.running 0)
          (CPC.finished failed) hg
        rw [show (if (fun c : CPC => c.isRunning) (CPC.running 0) = true then 1 else 0) = 1
            from rfl,
          show (if (fun c : CPC => c.isRunning) (CPC.finished failed) = true then 1 else 0) = 0
            from rfl] at hc
        simp only [countRunning] at ih ⊢
        omega
  exact ⟨hkey, by omega⟩

/-- Witness for C6: the initial state of the spec's scenario (10 tasks,
ceiling 2) is reachable and satisfies the bound. -/
theorem concurrency_bound_invariant_witness :
    countRunning (schedInit 10 2).pcs + (schedInit 10 2).avail = 2 ∧
      countRunning (schedInit 10 2).pcs ≤ 2 :=
  concurrency_bound_invariant 10 2 (schedInit 10 2) SchedReach.init

/-- Counterexample to C7 as stated: with two single-phase chains, a schedule
in which the second chain finishes first still makes the batch return the
keys in task-set order `["a", "b"]`, not in completion order `["b", "a"]`
(`tqdm.gather` sorts results by submission index), even though every chain
completed and persisted. -/
theorem gather_not_completion_order_cex :
    allFinished (runSched [0, 0] 2 2 [1, 1, 0, 0]) ∧
    completionKeys ["a", "b"] (runSched [0, 0] 2 2 [1, 1, 0, 0]) = ["b", "a"] ∧
    gatherResult ["a", "b"] (runSched [0, 0] 2 2 [1, 1, 0, 0]) = ["a", "b"] ∧
    gatherResult ["a", "b"] (runSched [0, 0] 2 2 [1, 1, 0, 0]) ≠
      completionKeys ["a", "b"] (runSched [0, 0] 2 2 [1, 1, 0, 0]) := by
  refine ⟨?_, by decide, by decide, by decide⟩
  decide

/-- C7 (amended): for every schedule under which all chains complete, the
batch returns the task keys in task-set (submission) order — `tqdm.gather`
sorts the completion-tagged results by submission index — and it does so only
once every chain has persisted its status record (`allFinished`). -/
theorem gather_returns_submission_order (works : List Nat) (maxParallelism : Nat)
    (sched : List Nat) (keys : List String)
    (hfin : allFinished (runSched works keys.length maxParallelism sched)) :
    gatherResult keys (runSched works keys.length maxParallelism sched) = keys := by
  obtain ⟨hlen, hnd, hiff⟩ := runSched_inv works keys.length maxParallelism sched
  have hmem : ∀ i, i ∈ (runSched works keys.length maxParallelism sched).completions ↔
      i ∈ List.range keys.length := by
    intro i
    rw [List.mem_range, hiff i]
    constructor
    · intro hg
      obtain ⟨hl, _⟩ := List.getElem?_eq_some_iff.mp hg
      omega
    · intro hi
      have hl : i < (runSched works keys.length maxParallelism sched).pcs.length := by
        omega
      rw [List.getElem?_eq_some_iff]
      exact ⟨hl, hfin _ (List.getElem_mem hl)⟩
  have hperm : List.Perm (runSched works keys.length maxParallelism sched).completions
      (List.range keys.length) :=
    (List.perm_ext_iff_of_nodup hnd (List.nodup_range _)).mpr hmem
  have hsorted : List.insertionSort (· ≤ ·)
      (runSched works keys.length maxParallelism sched).completions =
      List.range keys.length :=
    List.eq_of_perm_of_sorted ((List.perm_insertionSort _ _).trans hperm)
      (List.sorted_insertionSort _ _) (List.sorted_le_range keys.length)
  unfold gatherResult
  rw [hsorted]
  exact map_getD_range keys

/-- Witness for C7's amended theorem at the concrete schedule of the
counterexample. -/
theorem gather_returns_submission_order_witness :
    gatherResult ["a", "b"] (runSched [0, 0] 2 2 [1, 1, 0, 0]) = ["a", "b"] :=
  gather_returns_submission_order [0, 0] 2 [1, 1, 0, 0] ["a", "b"] (by decide)

/-- Counterexample to C8 as stated: a record *is* stored for the key (the
empty record), yet the chain runner does not start from it — Python's
`read_one_status(...) or {"params": params}` treats the empty (falsy) record
like a missing one and reinitializes. -/
theorem empty_record_reinitialized_cex :
    emptyRecStore "t1" = some [] ∧
    (executeSingleChain [] (Force.names []) emptyRecStore "t1" demoParams todA).persisted =
      [("params", demoParams)] ∧
    (executeSingleChain [] (Force.names []) emptyRecStore "t1" demoParams todA).persisted ≠
      [] :=
  ⟨rfl, rfl, by decide⟩

/-- C8 (amended): the chain runner starts from the stored record whenever a
*non-empty* record is present in the store (whatever its contents), and
initializes a fresh record `{"params": params}` exactly when no record is
stored for the key or the stored record is empty.  (Observed through a chain
with no phases, which persists its starting record unchanged.) -/
theorem load_status_record (store : Store) (key : String) (params : Value)
    (force : Force) (tod : Nat → String) :
    (executeSingleChain [] force store key params tod).persisted =
      if store key = none ∨ store key = some [] then [("params", params)]
      else (store key).getD [] := by
  unfold executeSingleChain runPhases loadStatus
  rcases hs : store key with _ | s
  · simp
  · by_cases he : s = []
    · subst he; simp
    · simp [he]

/-- Counterexample to C9 as stated: the task set `["a", "a", "."]` contains
the invalid key `"."`, but the batch entry point raises the duplicate-key
error (the duplicate check runs first), not an invalid-key error. -/
theorem duplicate_precedes_invalid_key_cex :
    execute_async [] emptyStore (Tasks.keyList ["a", "a", "."]) (Force.names [])
        (fun _ => todA) =
      ([], Except.error (ValErr.duplicateKeys ["a", "a"])) ∧
    ValErr.duplicateKeys ["a", "a"] ≠ ValErr.invalidKey "." := by
  refine ⟨rfl, by decide⟩

/-- C9 (amended): on a task set with duplicate keys the batch entry point
raises a duplicate-key error naming exactly the keys occurring more than
once; on a duplicate-free task set containing an invalid key (`"."`, `".."`,
or one containing a path separator) it raises an invalid-key error naming
such a key (the duplicate check takes precedence); in both cases the error is
raised with no effect performed — before the output directory is created and
before the network session is opened. -/
theorem validation_fail_fast (phases : List Phase) (store : Store) (force : Force)
    (tod : String → Nat → String) (tasks : Tasks)
    (hbad : ¬ tasks.allKeys.Nodup ∨
      ∃ k, k ∈ tasks.allKeys ∧ _is_valid_filename k = false) :
    ∃ e, execute_async phases store tasks force tod = ([], Except.error e) ∧
      ((¬ tasks.allKeys.Nodup ∧ ∃ dups, e = ValErr.duplicateKeys dups ∧
          ∀ d, d ∈ dups ↔ 1 < tasks.allKeys.count d) ∨
       (tasks.allKeys.Nodup ∧ ∃ k', e = ValErr.invalidKey k' ∧ k' ∈ tasks.allKeys ∧
          _is_valid_filename k' = false)) := by
  by_cases hnd : tasks.allKeys.Nodup
  · rcases hbad with h | ⟨k, hk, hkv⟩
    · exact absurd hnd h
    · have hlen : tasks.allKeys.dedup.length = tasks.allKeys.length :=
        (dedup_length_eq_iff _).mpr hnd
      rcases hfind : tasks.allKeys.find? (fun k => !_is_valid_filename k) with _ | k'
      · exfalso
        have := List.find?_eq_none.mp hfind k hk
        simp [hkv] at this
      · refine ⟨ValErr.invalidKey k', ?_, Or.inr ⟨hnd, k', rfl,
          List.mem_of_find?_eq_some hfind, by simpa using List.find?_some hfind⟩⟩
        unfold execute_async validateKeys
        rw [if_neg (by omega), hfind]
  · have hlen : tasks.allKeys.dedup.length ≠ tasks.allKeys.length := by
      intro h
      exact hnd ((dedup_length_eq_iff _).mp h)
    refine ⟨ValErr.duplicateKeys
        (tasks.allKeys.filter (fun k => 1 < tasks.allKeys.count k)), ?_,
      Or.inl ⟨hnd, _, rfl, fun d => mem_duplicate_filter _ d⟩⟩
    unfold execute_async validateKeys
    rw [if_pos hlen]

/-- Witness for C9's amended theorem: a duplicate-free task set whose second
key contains a path separator. -/
theorem validation_fail_fast_witness :
    ∃ e, execute_async [] emptyStore (Tasks.keyList ["x", "../evil"]) (Force.names [])
        (fun _ => todA) = ([], Except.error e) ∧
      ((¬ (Tasks.keyList ["x", "../evil"]).allKeys.Nodup ∧ ∃ dups,
          e = ValErr.duplicateKeys dups ∧
          ∀ d, d ∈ dups ↔ 1 < (Tasks.keyList ["x", "../evil"]).allKeys.count d) ∨
       ((Tasks.keyList ["x", "../evil"]).allKeys.Nodup ∧ ∃ k',
          e = ValErr.invalidKey k' ∧ k' ∈ (Tasks.keyList ["x", "../evil"]).allKeys ∧
          _is_valid_filename k' = false)) :=
  validation_fail_fast [] emptyStore (Force.names []) (fun _ => todA)
    (Tasks.keyList ["x", "../evil"]) (Or.inr ⟨"../evil", by decide, by decide⟩)

/-- C2: a recognized task-local failure at a phase (first failure of the
chain) is absorbed, not re-raised: the runner records
`ERROR <ExceptionKind>::<message>` in the phase's status field (a cancelled
phase being recorded under `TimeoutError`), sets the phase's last-run field,
deletes any stale result field, invokes no later phase, persists the record
and returns the task key. -/
theorem recognized_failure_recorded_and_stops_chain (force : Force) (store : Store)
    (key : String) (params : Value) (tod : Nat → String) (pre post : List Phase)
    (p : Phase) (e : PyExc)
    (hpre : (runPhases force key tod pre (loadStatus store key params) [] 0).outcome =
      Outcome.completed)
    (hskip : previous_execution p.name force
      (runPhases force key tod pre (loadStatus store key params) [] 0).persisted = none)
    (herr : p.body key
      (runPhases force key tod pre (loadStatus store key params) [] 0).persisted =
      Except.error e)
    (hrec : recognized e = true) :
    (executeSingleChain (pre ++ p :: post) force store key params tod).outcome =
      Outcome.stopped ∧
    chainReturn (executeSingleChain (pre ++ p :: post) force store key params tod) key =
      some key ∧
    lookup (executeSingleChain (pre ++ p :: post) force store key params tod).persisted
      (statusKey p.name) = some (Value.vstr (errString (wrapCancelled e))) ∧
    lookup (executeSingleChain (pre ++ p :: post) force store key params tod).persisted
      (lastRunKey p.name) = some (Value.vstr
        (tod (runPhases force key tod pre (loadStatus store key params) [] 0).clock)) ∧
    lookup (executeSingleChain (pre ++ p :: post) force store key params tod).persisted
      p.name = none ∧
    (executeSingleChain (pre ++ p :: post) force store key params tod).invoked =
      (runPhases force key tod pre (loadStatus store key params) [] 0).invoked ++
        [p.name] := by
  have h := runPhases_first_error force key tod pre post p (loadStatus store key params)
    [] 0 e hpre hskip herr
  rw [if_pos hrec] at h
  unfold executeSingleChain
  rw [h]
  exact ⟨rfl, rfl, lookup_stepError_status _ _ _ _, lookup_stepError_lastRun _ _ _ _,
    lookup_stepError_name _ _ _ _, rfl⟩

/-- Witness for C2: a chain whose middle phase times out; the first phase's
result survives, the third phase is never invoked. -/
theorem recognized_failure_recorded_and_stops_chain_witness :
    (executeSingleChain [fetchPhase, timeoutPhase, parsePhase] (Force.names []) emptyStore
      "t1" demoParams todA).outcome = Outcome.stopped ∧
    chainReturn (executeSingleChain [fetchPhase, timeoutPhase, parsePhase] (Force.names [])
      emptyStore "t1" demoParams todA) "t1" = some "t1" ∧
    lookup (executeSingleChain [fetchPhase, timeoutPhase, parsePhase] (Force.names [])
      emptyStore "t1" demoParams todA).persisted (statusKey "jam") =
      some (Value.vstr (errString (wrapCancelled (PyExc.timeoutError "slow")))) ∧
    lookup (executeSingleChain [fetchPhase, timeoutPhase, parsePhase] (Force.names [])
      emptyStore "t1" demoParams todA).persisted (lastRunKey "jam") =
      some (Value.vstr (todA 1)) ∧
    lookup (executeSingleChain [fetchPhase, timeoutPhase, parsePhase] (Force.names [])
      emptyStore "t1" demoParams todA).persisted "jam" = none ∧
    (executeSingleChain [fetchPhase, timeoutPhase, parsePhase] (Force.names []) emptyStore
      "t1" demoParams todA).invoked = ["fetch", "jam"] :=
  recognized_failure_recorded_and_stops_chain (Force.names []) emptyStore "t1" demoParams
    todA [fetchPhase] [parsePhase] timeoutPhase (PyExc.timeoutError "slow")
    (by decide) (by decide) rfl rfl

/-- C3: an unrecognized failure makes the chain runner persist the status
record exactly as it stood, then re-raise; the batch orchestrator catches
only cancellation, so the failure propagates out of the whole batch call. -/
theorem unrecognized_failure_persists_then_propagates (force : Force) (store : Store)
    (key : String) (params : Value) (todAll : String → Nat → String)
    (pre post : List Phase) (p : Phase) (e : PyExc) (tasks : Tasks)
    (rest : List (String × Value))
    (hpre : (runPhases force key (todAll key) pre (loadStatus store key params) [] 0).outcome
      = Outcome.completed)
    (hskip : previous_execution p.name force
      (runPhases force key (todAll key) pre (loadStatus store key params) [] 0).persisted
      = none)
    (herr : p.body key
      (runPhases force key (todAll key) pre (loadStatus store key params) [] 0).persisted
      = Except.error e)
    (hrec : recognized e = false)
    (htasks : tasks.toPairs = (key, params) :: rest)
    (hvalid : validateKeys tasks.allKeys = Except.ok ()) :
    (executeSingleChain (pre ++ p :: post) force store key params (todAll key)).persisted =
      (runPhases force key (todAll key) pre (loadStatus store key params) [] 0).persisted ∧
    (executeSingleChain (pre ++ p :: post) force store key params (todAll key)).outcome =
      Outcome.raised e ∧
    chainReturn (executeSingleChain (pre ++ p :: post) force store key params (todAll key))
      key = none ∧
    execute_async (pre ++ p :: post) store tasks force todAll =
      ([Effect.mkdirEffect, Effect.openSessionEffect],
        Except.ok (BatchOutcome.raised e)) := by
  have h := runPhases_first_error force key (todAll key) pre post p
    (loadStatus store key params) [] 0 e hpre hskip herr
  rw [if_neg (by simp [hrec])] at h
  have hchain : executeSingleChain (pre ++ p :: post) force store key params (todAll key) =
      ⟨(runPhases force key (todAll key) pre (loadStatus store key params) [] 0).persisted,
        (runPhases force key (todAll key) pre
          (loadStatus store key params) [] 0).invoked ++ [p.name],
        Outcome.raised e,
        (runPhases force key (todAll key) pre (loadStatus store key params) [] 0).clock⟩ := by
    unfold executeSingleChain
    exact h
  have hcanc : isCancelledExc e = false := by
    cases hc : isCancelledExc e
    · rfl
    · exact absurd (recognized_of_isCancelled e hc) (by simp [hrec])
  refine ⟨by rw [hchain], by rw [hchain], by rw [hchain]; rfl, ?_⟩
  simp only [execute_async, hvalid, htasks, runChains, hchain]
  simp [hcanc]

/-- Witness for C3: a single-task batch whose only phase raises a
`ValueError` (unrecognized); the batch call reports the propagated failure. -/
theorem unrecognized_failure_persists_then_propagates_witness :
    (executeSingleChain [bugPhase] (Force.names []) emptyStore "t1" demoParams
      ((fun _ => todA) "t1")).persisted =
      (runPhases (Force.names []) "t1" ((fun _ => todA) "t1") []
        (loadStatus emptyStore "t1" demoParams) [] 0).persisted ∧
    (executeSingleChain [bugPhase] (Force.names []) emptyStore "t1" demoParams
      ((fun _ => todA) "t1")).outcome =
      Outcome.raised (PyExc.otherError "ValueError" "bad") ∧
    chainReturn (executeSingleChain [bugPhase] (Force.names []) emptyStore "t1" demoParams
      ((fun _ => todA) "t1")) "t1" = none ∧
    execute_async [bugPhase] emptyStore (Tasks.dict [("t1", demoParams)]) (Force.names [])
      (fun _ => todA) =
      ([Effect.mkdirEffect, Effect.openSessionEffect],
        Except.ok (BatchOutcome.raised (PyExc.otherError "ValueError" "bad"))) :=
  unrecognized_failure_persists_then_propagates (Force.names []) emptyStore "t1" demoParams
    (fun _ => todA) [] [] bugPhase (PyExc.otherError "ValueError" "bad")
    (Tasks.dict [("t1", demoParams)]) [] (by decide) (by decide) rfl rfl rfl rfl

/-- C10: every `RuntimeError` raised by a phase body is classified as a
recognized task-local failure: recorded as `ERROR RuntimeError::<message>`,
the chain stops without re-raising and still returns its key. -/
theorem runtime_error_is_task_local (force : Force) (store : Store) (key : String)
    (params : Value) (tod : Nat → String) (pre post : List Phase) (p : Phase) (m : String)
    (hpre : (runPhases force key tod pre (loadStatus store key params) [] 0).outcome =
      Outcome.completed)
    (hskip : previous_execution p.name force
      (runPhases force key tod pre (loadStatus store key params) [] 0).persisted = none)
    (herr : p.body key
      (runPhases force key tod pre (loadStatus store key params) [] 0).persisted =
      Except.error (PyExc.runtimeError m)) :
    recognized (PyExc.runtimeError m) = true ∧
    (executeSingleChain (pre ++ p :: post) force store key params tod).outcome =
      Outcome.stopped ∧
    chainReturn (executeSingleChain (pre ++ p :: post) force store key params tod) key =
      some key ∧
    lookup (executeSingleChain (pre ++ p :: post) force store key params tod).persisted
      (statusKey p.name) = some (Value.vstr ("ERROR RuntimeError::" ++ m)) ∧
    (executeSingleChain (pre ++ p :: post) force store key params tod).invoked =
      (runPhases force key tod pre (loadStatus store key params) [] 0).invoked ++
        [p.name] := by
  have h := runPhases_first_error force key tod pre post p (loadStatus store key params)
    [] 0 (PyExc.runtimeError m) hpre hskip herr
  rw [if_pos (show recognized (PyExc.runtimeError m) = true from rfl)] at h
  unfold executeSingleChain
  rw [h]
  refine ⟨rfl, rfl, rfl, ?_, rfl⟩
  rw [lookup_stepError_status]
  rfl

/-- Witness for C10: a phase deliberately failing with
`RuntimeError("boom")`. -/
theorem runtime_error_is_task_local_witness :
    recognized (PyExc.runtimeError "boom") = true ∧
    (executeSingleChain [fetchPhase, flakyPhase, parsePhase] (Force.names []) emptyStore
      "t1" demoParams todA).outcome = Outcome.stopped ∧
    chainReturn (executeSingleChain [fetchPhase, flakyPhase, parsePhase] (Force.names [])
      emptyStore "t1" demoParams todA) "t1" = some "t1" ∧
    lookup (executeSingleChain [fetchPhase, flakyPhase, parsePhase] (Force.names [])
      emptyStore "t1" demoParams todA).persisted (statusKey "flaky") =
      some (Value.vstr ("ERROR RuntimeError::" ++ "boom")) ∧
    (executeSingleChain [fetchPhase, flakyPhase, parsePhase] (Force.names []) emptyStore
      "t1" demoParams todA).invoked = ["fetch", "flaky"] :=
  runtime_error_is_task_local (Force.names []) emptyStore "t1" demoParams todA
    [fetchPhase] [parsePhase] flakyPhase "boom" (by decide) (by decide) rfl

/-- C4: idempotence of a re-run — after a run that completed every phase,
re-running the same task with an empty force set invokes no phase body (every
phase is skipped on its present result field) and persists a record identical
to the first run's, including every `<phase>_last_run` field (the second
run's timestamp oracle is irrelevant as it is never consulted). -/
theorem rerun_idempotent (phases : List Phase) (force1 : Force) (store store2 : Store)
    (key : String) (params : Value) (tod tod2 : Nat → String)
    (hwf : wfNames (phases.map Phase.name))
    (h1 : (executeSingleChain phases force1 store key params tod).outcome =
      Outcome.completed)
    (h2 : store2 key = some (executeSingleChain phases force1 store key params tod).persisted) :
    executeSingleChain phases (Force.names []) store2 key params tod2 =
      ⟨(executeSingleChain phases force1 store key params tod).persisted, [],
        Outcome.completed, 0⟩ := by
  have hne : (executeSingleChain phases force1 store key params tod).persisted ≠ [] :=
    runPhases_persisted_ne_nil _ _ _ _ _ _ _ (loadStatus_ne_nil store key params)
  have hload : loadStatus store2 key params =
      (executeSingleChain phases force1 store key params tod).persisted := by
    unfold loadStatus
    rw [h2]
    simp [hne]
  unfold executeSingleChain
  rw [hload]
  apply runPhases_all_skip
  · intro q _
    simp
  · intro q hq
    obtain ⟨⟨v, hv⟩, hs⟩ :=
      runPhases_completed_fields force1 key tod phases (loadStatus store key params) [] 0
        hwf h1 q hq
    exact ⟨v, hv, hs⟩

/-- Witness for C4: re-running the completed two-phase demo chain changes
nothing and invokes nothing. -/
theorem rerun_idempotent_witness :
    executeSingleChain [fetchPhase, parsePhase] (Force.names []) storeAfterRun1 "t1"
      demoParams todB =
      ⟨(executeSingleChain [fetchPhase, parsePhase] (Force.names []) emptyStore "t1"
        demoParams todA).persisted, [], Outcome.completed, 0⟩ :=
  rerun_idempotent [fetchPhase, parsePhase] (Force.names []) emptyStore storeAfterRun1
    "t1" demoParams todA todB (by decide) (by decide) rfl

/-- Counterexample to C5 as stated: after a fully successful run of
`[fetch, parse]`, re-running with force set `{fetch}` re-invokes only
`fetch` — the downstream phase `parse` is *not* re-invoked (its stored result
makes the resumability wrapper skip it, forced or not). -/
theorem forcing_does_not_reinvoke_downstream_cex :
    run1.outcome = Outcome.completed ∧
    (executeSingleChain [fetchPhase, parsePhase] (Force.names ["fetch"]) storeAfterRun1
      "t1" demoParams todB).invoked = ["fetch"] ∧
    "parse" ∉ (executeSingleChain [fetchPhase, parsePhase] (Force.names ["fetch"])
      storeAfterRun1 "t1" demoParams todB).invoked := by
  exact ⟨by decide, by decide, by decide⟩

/-- C5 (amended): forcing exactly one phase `p` over a task whose previous
run succeeded in every phase re-invokes only `p`'s body (assumed to succeed
again): phases before *and after* `p` are skipped — their bodies are not
invoked and their stored fields are left intact — and only `p`'s three
fields change in the persisted record. -/
theorem forcing_reinvokes_only_forced_phase (pre post : List Phase) (p : Phase)
    (force1 : Force) (store store2 : Store) (key : String) (params : Value)
    (tod tod2 : Nat → String) (v : Value)
    (hwf : wfNames ((pre ++ p :: post).map Phase.name))
    (h1 : (executeSingleChain (pre ++ p :: post) force1 store key params tod).outcome =
      Outcome.completed)
    (h2 : store2 key =
      some (executeSingleChain (pre ++ p :: post) force1 store key params tod).persisted)
    (hbody : p.body key
      (executeSingleChain (pre ++ p :: post) force1 store key params tod).persisted =
      Except.ok v) :
    (executeSingleChain (pre ++ p :: post) (Force.names [p.name]) store2 key params
      tod2).invoked = [p.name] ∧
    (executeSingleChain (pre ++ p :: post) (Force.names [p.name]) store2 key params
      tod2).outcome = Outcome.completed ∧
    lookup (executeSingleChain (pre ++ p :: post) (Force.names [p.name]) store2 key params
      tod2).persisted p.name = some v ∧
    lookup (executeSingleChain (pre ++ p :: post) (Force.names [p.name]) store2 key params
      tod2).persisted (statusKey p.name) = some (Value.vstr "SUCCESS") ∧
    lookup (executeSingleChain (pre ++ p :: post) (Force.names [p.name]) store2 key params
      tod2).persisted (lastRunKey p.name) = some (Value.vstr (tod2 0)) ∧
    (∀ f, f ∉ fieldsOf p.name →
      lookup (executeSingleChain (pre ++ p :: post) (Force.names [p.name]) store2 key
        params tod2).persisted f =
      lookup (executeSingleChain (pre ++ p :: post) force1 store key params tod).persisted
        f) := by
  have hne : (executeSingleChain (pre ++ p :: post) force1 store key params tod).persisted
      ≠ [] :=
    runPhases_persisted_ne_nil _ _ _ _ _ _ _ (loadStatus_ne_nil store key params)
  have hload : loadStatus store2 key params =
      (executeSingleChain (pre ++ p :: post) force1 store key params tod).persisted := by
    unfold loadStatus
    rw [h2]
    simp [hne]
  have hfields := runPhases_completed_fields force1 key tod (pre ++ p :: post)
    (loadStatus store key params) [] 0 hwf h1
  have hnd : ((pre ++ p :: post).map Phase.name).Nodup := wfNames_nodup hwf
  have hnd' : (pre.map Phase.name ++ p.name :: post.map Phase.name).Nodup := by
    simpa using hnd
  obtain ⟨hndpre, hndrest, hdisj⟩ := List.nodup_append.mp hnd'
  have hp_not_pre : p.name ∉ pre.map Phase.name := fun hmem =>
    hdisj hmem (by simp)
  have hp_not_post : p.name ∉ post.map Phase.name := (List.nodup_cons.mp hndrest).1
  -- the forced re-run: the `pre` prefix is skipped wholesale
  have hpre2 : runPhases (Force.names [p.name]) key tod2 pre
      (executeSingleChain (pre ++ p :: post) force1 store key params tod).persisted [] 0 =
      ⟨(executeSingleChain (pre ++ p :: post) force1 store key params tod).persisted, [],
        Outcome.completed, 0⟩ := by
    apply runPhases_all_skip
    · intro q hq
      simp only [List.mem_singleton]
      intro hqp
      exact hp_not_pre (hqp ▸ List.mem_map.mpr ⟨q, hq, rfl⟩)
    · intro q hq
      obtain ⟨⟨w, hw⟩, hs⟩ := hfields q (by simp [hq])
      exact ⟨w, hw, hs⟩
  have hskip2 : previous_execution p.name (Force.names [p.name])
      (executeSingleChain (pre ++ p :: post) force1 store key params tod).persisted =
      none := by
    obtain ⟨⟨w, hw⟩, _⟩ := hfields p (by simp)
    have hw' : lookup (executeSingleChain (pre ++ p :: post) force1 store key params
        tod).persisted p.name = some w := hw
    unfold previous_execution
    rw [hw']
    simp
  -- after re-running `p`, the `post` suffix is skipped wholesale
  have hpost2 : runPhases (Force.names [p.name]) key tod2 post
      (stepSuccess p
        (executeSingleChain (pre ++ p :: post) force1 store key params tod).persisted v
        (tod2 0)) [p.name] 1 =
      ⟨stepSuccess p
        (executeSingleChain (pre ++ p :: post) force1 store key params tod).persisted v
        (tod2 0), [p.name], Outcome.completed, 1⟩ := by
    apply runPhases_all_skip
    · intro q hq
      simp only [List.mem_singleton]
      intro hqp
      exact hp_not_post (hqp ▸ List.mem_map.mpr ⟨q, hq, rfl⟩)
    · intro q hq
      obtain ⟨⟨w, hw⟩, hs⟩ := hfields q (by simp [hq])
      have hqname : q.name ∈ (pre ++ p :: post).map Phase.name :=
        List.mem_map.mpr ⟨q, by simp [hq], rfl⟩
      have hpname : p.name ∈ (pre ++ p :: post).map Phase.name :=
        List.mem_map.mpr ⟨p, by simp, rfl⟩
      have hqp : q.name ≠ p.name := fun hh =>
        hp_not_post (hh ▸ List.mem_map.mpr ⟨q, hq, rfl⟩)
      have hdis := wfNames_pairwise_disjoint hwf q.name hqname p.name hpname hqp
      have l1 : q.name ≠ p.name := hqp
      have l2 : q.name ≠ statusKey p.name := fun hh =>
        hdis q.name (mem_fieldsOf_self q.name) (hh ▸ statusKey_mem_fieldsOf p.name)
      have l3 : q.name ≠ lastRunKey p.name := fun hh =>
        hdis q.name (mem_fieldsOf_self q.name) (hh ▸ lastRunKey_mem_fieldsOf p.name)
      have l4 : statusKey q.name ≠ p.name := fun hh =>
        hdis (statusKey q.name) (statusKey_mem_fieldsOf q.name)
          (hh ▸ mem_fieldsOf_self p.name)
      have l5 : statusKey q.name ≠ statusKey p.name := fun hh =>
        hdis (statusKey q.name) (statusKey_mem_fieldsOf q.name)
          (hh ▸ statusKey_mem_fieldsOf p.name)
      have l6 : statusKey q.name ≠ lastRunKey p.name := fun hh =>
        hdis (statusKey q.name) (statusKey_mem_fieldsOf q.name)
          (hh ▸ lastRunKey_mem_fieldsOf p.name)
      refine ⟨w, ?_, ?_⟩
      · rw [lookup_stepSuccess_of_ne _ _ _ _ _ l1 l2 l3]
        exact hw
      · rw [lookup_stepSuccess_of_ne _ _ _ _ _ l4 l5 l6]
        exact hs
  have hrun2 : executeSingleChain (pre ++ p :: post) (Force.names [p.name]) store2 key
      params tod2 =
      ⟨stepSuccess p
        (executeSingleChain (pre ++ p :: post) force1 store key params tod).persisted v
        (tod2 0), [p.name], Outcome.completed, 1⟩ := by
    unfold executeSingleChain
    rw [hload]
    rw [runPhases_append_completed (Force.names [p.name]) key tod2 pre (p :: post) _ [] 0
      (by rw [hpre2])]
    rw [hpre2]
    simp only [runPhases, hskip2, hbody]
    exact hpost2
  rw [hrun2]
  refine ⟨rfl, rfl, lookup_stepSuccess_name _ _ _ _, lookup_stepSuccess_status _ _ _ _,
    lookup_stepSuccess_lastRun _ _ _ _, ?_⟩
  intro f hf
  exact lookup_stepSuccess_of_ne _ _ _ _ _
    (fun hh => hf (hh ▸ mem_fieldsOf_self p.name))
    (fun hh => hf (hh ▸ statusKey_mem_fieldsOf p.name))
    (fun hh => hf (hh ▸ lastRunKey_mem_fieldsOf p.name))

/-- Witness for C5's amended theorem: forcing `parse` in the completed
three-phase demo chain re-invokes only `parse`. -/
theorem forcing_reinvokes_only_forced_phase_witness :
    (executeSingleChain [fetchPhase, parsePhase, thumbPhase] (Force.names ["parse"])
      storeAfterRun1three "t1" demoParams todB).invoked = ["parse"] ∧
    (executeSingleChain [fetchPhase, parsePhase, thumbPhase] (Force.names ["parse"])
      storeAfterRun1three "t1" demoParams todB).outcome = Outcome.completed ∧
    lookup (executeSingleChain [fetchPhase, parsePhase, thumbPhase] (Force.names ["parse"])
      storeAfterRun1three "t1" demoParams todB).persisted "parse" =
      some (Value.vdict [("kind", "xml")]) ∧
    lookup (executeSingleChain [fetchPhase, parsePhase, thumbPhase] (Force.names ["parse"])
      storeAfterRun1three "t1" demoParams todB).persisted (statusKey "parse") =
      some (Value.vstr "SUCCESS") ∧
    lookup (executeSingleChain [fetchPhase, parsePhase, thumbPhase] (Force.names ["parse"])
      storeAfterRun1three "t1" demoParams todB).persisted (lastRunKey "parse") =
      some (Value.vstr (todB 0)) ∧
    (∀ f, f ∉ fieldsOf "parse" →
      lookup (executeSingleChain [fetchPhase, parsePhase, thumbPhase]
        (Force.names ["parse"]) storeAfterRun1three "t1" demoParams todB).persisted f =
      lookup (executeSingleChain [fetchPhase, parsePhase, thumbPhase] (Force.names [])
        emptyStore "t1" demoParams todA).persisted f) :=
  forcing_reinvokes_only_forced_phase [fetchPhase] [thumbPhase] parsePhase
    (Force.names []) emptyStore storeAfterRun1three "t1" demoParams todA todB
    (Value.vdict [("kind", "xml")]) (by decide) (by decide) rfl rfl

end Scrapeflow
